import Mathlib

/-!
Shallow embedding of the COSAR / CSS core (src/cosar.py, src/css.py).

Conventions of the embedding:
* Python dicts become association lists `List (key × value)` (Python dicts
  keep insertion order and have unique keys; lookups take the first match).
* The votes dict `dict[tuple[str, str], int]` becomes
  `List ((String × String) × ℤ)`.
* Python floats become `ℚ`; `round(x, 3)` becomes rounding `1000 * x` to the
  nearest integer with ties to even (Python's banker's rounding) divided by
  `1000`.
* A Python function that can raise becomes `Except String α`; a raised
  exception is `Except.error msg` and aborts the whole call, so no partial
  result escapes.
-/

namespace cosar

/-- Round a rational to the nearest integer, ties to even
(the rounding used by Python's built-in `round`). -/
def rndHalfEven (q : ℚ) : ℤ :=
  if q - ⌊q⌋ < 1/2 then ⌊q⌋
  else if 1/2 < q - ⌊q⌋ then ⌊q⌋ + 1
  else if ⌊q⌋ % 2 = 0 then ⌊q⌋ else ⌊q⌋ + 1

/-- `round(x, 3)` of Python: round to three decimal places. -/
def round3 (x : ℚ) : ℚ := (rndHalfEven (1000 * x) : ℚ) / 1000

/-- A tally is the triple `(v_minus, v_zero, v_plus)` (Python list `[m, z, p]`). -/
abbrev Tally := ℕ × ℕ × ℕ

def bump (t : List (String × Tally)) (arg : String) (f : Tally → Tally) :
    List (String × Tally) :=
  t.map (fun p => if p.1 = arg then (p.1, f p.2) else p)

/-- `{arg: [0, 0, 0] for arg in args}` — insertion order, first occurrence wins. -/
def initTally (args : List String) : List (String × Tally) :=
  args.foldl (fun acc a => if (List.lookup a acc).isSome then acc else acc ++ [(a, (0, 0, 0))]) []

/-- One iteration of the `for (_, argument), vote in votes.items()` loop of
`aggregate_votes`. -/
def voteStep (t : List (String × Tally)) (entry : (String × String) × ℤ) :
    Except String (List (String × Tally)) :=
  match entry with
  | ((_, argument), vote) =>
    if (List.lookup argument t).isSome then
      if vote = -1 then .ok (bump t argument (fun x => (x.1 + 1, x.2.1, x.2.2)))
      else if vote = 0 then .ok (bump t argument (fun x => (x.1, x.2.1 + 1, x.2.2)))
      else if vote = 1 then .ok (bump t argument (fun x => (x.1, x.2.1, x.2.2 + 1)))
      else .error ("Invalid vote value: " ++ toString vote ++ ". Expected -1, 0, or 1.")
    else .ok t

/-- `aggregate_votes(args, votes)` of src/cosar.py. -/
def aggregate_votes (args : List String) (votes : List ((String × String) × ℤ)) :
    Except String (List (String × Tally)) :=
  List.foldlM voteStep (initTally args) votes

/-- The smoothing constant `EPS = 0.1` of `compute_scores`. -/
def EPS : ℚ := 1/10

/-- The per-argument body of the `compute_scores` loop. -/
def scoreFormula (t : Tally) : ℚ :=
  match t with
  | (v_minus, _, v_plus) =>
    if v_plus = 0 ∧ v_minus = 0 then 0
    else round3 ((v_plus : ℚ) / ((v_minus : ℚ) + (v_plus : ℚ) + EPS))

/-- `compute_scores(aggregate_votes)` of src/cosar.py. -/
def compute_scores (t : List (String × Tally)) : List (String × ℚ) :=
  t.map (fun p => (p.1, scoreFormula p.2))

/-- `prune_attacks(atts, scores)` of src/cosar.py; `scores[...]` on a missing
key is a `KeyError`, aborting the call. -/
def prune_attacks (atts : List (String × String)) (scores : List (String × ℚ)) :
    Except String (List (String × String)) :=
  match atts with
  | [] => .ok []
  | (attacker, target) :: rest =>
    match List.lookup attacker scores with
    | none => .error ("KeyError: " ++ attacker)
    | some sa =>
      match List.lookup target scores with
      | none => .error ("KeyError: " ++ target)
      | some st =>
        match prune_attacks rest scores with
        | .error e => .error e
        | .ok pr => if sa ≥ st then .ok ((attacker, target) :: pr) else .ok pr

/-- `run(args, atts, votes, semantics)` of src/cosar.py.  The external
pygarg solver is the parameter `oracle` (it may fail; its failures
propagate). -/
def run {E : Type} (oracle : List String → List (String × String) → String → Except String E)
    (args : List String) (atts : List (String × String))
    (votes : List ((String × String) × ℤ)) (semantics : String) :
    Except String (List (String × String) × E) := do
  let aggregate ← aggregate_votes args votes
  let scores := compute_scores aggregate
  let pruned_atts ← prune_attacks atts scores
  let extensions ← oracle args pruned_atts semantics
  return (pruned_atts, extensions)

end cosar

namespace css

/-- An aggregate score of `css.run`: a Python `int` for `agg` ∈ {sum, min},
a Python list of ints for the lexicographic modes. -/
inductive Score : Type
  | num : ℤ → Score
  | seq : List ℤ → Score
deriving DecidableEq, Repr

/-- `d[arg] = val` on a Python dict: overwrite in place if the key exists,
append otherwise. -/
def updateAssoc (l : List (String × ℤ)) (k : String) (v : ℤ) : List (String × ℤ) :=
  if (List.lookup k l).isSome then l.map (fun p => if p.1 = k then (p.1, v) else p)
  else l ++ [(k, v)]

/-- `agents.setdefault(ag, {})[arg] = val` on the running agents dict. -/
def updateAgents (acc : List (String × List (String × ℤ))) (ag arg : String) (v : ℤ) :
    List (String × List (String × ℤ)) :=
  if (List.lookup ag acc).isSome then
    acc.map (fun p => if p.1 = ag then (p.1, updateAssoc p.2 arg v) else p)
  else acc ++ [(ag, [(arg, v)])]

/-- The `# Group votes by agent` loop of `css.run`. -/
def groupAgents (votes : List ((String × String) × ℤ)) :
    List (String × List (String × ℤ)) :=
  votes.foldl (fun acc e => updateAgents acc e.1.1 e.1.2 e.2) []

/-- `vec[a]` for `vec = {a: 1 if a in ext else -1 for a in arguments}`. -/
def vecVal (ext : List String) (a : String) : ℤ :=
  if a ∈ ext then 1 else -1

/-- Agreement `s` of one agent dict `v` with the extension vector. -/
def agentS (arguments ext : List String) (v : List (String × ℤ)) : ℤ :=
  (v.countP (fun p => decide (p.1 ∈ arguments ∧ p.2 = vecVal ext p.1)) : ℤ)

/-- Disagreement `d` of one agent dict `v` with the extension vector
(negative count, as in the source). -/
def agentD (arguments ext : List String) (v : List (String × ℤ)) : ℤ :=
  -(v.countP (fun p => decide (p.1 ∈ arguments ∧ p.2 = -vecVal ext p.1)) : ℤ)

/-- `mesures.get(measure, s + d)` — the per-agent measure selection. -/
def perAgent (measure : String) (s d : ℤ) : ℤ :=
  if measure = "S" then s
  else if measure = "D" then d
  else if measure = "U" then s + d
  else s + d

/-- The per-agent score list `sc` built for one extension. -/
def scList (arguments : List String) (agents : List (String × List (String × ℤ)))
    (measure : String) (ext : List String) : List ℤ :=
  agents.map (fun p =>
    perAgent measure (agentS arguments ext p.2) (agentD arguments ext p.2))

/-- Insert into an ascending list (models a step of Python's `sorted`). -/
def insertAsc (x : ℤ) : List ℤ → List ℤ
  | [] => [x]
  | y :: ys => if x ≤ y then x :: y :: ys else y :: insertAsc x ys

/-- `sorted(sc)`. -/
def sortAsc (l : List ℤ) : List ℤ := l.foldr insertAsc []

/-- Insert into a descending list. -/
def insertDesc (x : ℤ) : List ℤ → List ℤ
  | [] => [x]
  | y :: ys => if x ≥ y then x :: y :: ys else y :: insertDesc x ys

/-- `sorted(sc, reverse=True)`. -/
def sortDesc (l : List ℤ) : List ℤ := l.foldr insertDesc []

/-- The `# Aggregate scores` dispatch of `css.run`; `min([])` raises. -/
def aggScore (agg : String) (sc : List ℤ) : Except String Score :=
  if agg = "sum" then .ok (.num sc.sum)
  else if agg = "min" then
    match sc with
    | [] => .error "min() arg is an empty sequence"
    | x :: xs => .ok (.num (xs.foldl min x))
  else if agg = "leximax" then .ok (.seq (sortDesc sc))
  else if agg = "leximin" then .ok (.seq (sortAsc sc))
  else .ok (.seq (sortAsc sc))

/-- The aggregate score `css.run` assigns to one extension. -/
def scoreOf (arguments : List String) (agents : List (String × List (String × ℤ)))
    (measure agg : String) (ext : List String) : Except String Score :=
  aggScore agg (scList arguments agents measure ext)

/-- Python's `<` on two aggregate scores (`int < int`, or list lexicographic;
cross-kind comparison never happens in a run, where it would raise). -/
def lexLt : List ℤ → List ℤ → Bool
  | [], [] => false
  | [], _ :: _ => true
  | _ :: _, [] => false
  | x :: xs, y :: ys => decide (x < y) || (decide (x = y) && lexLt xs ys)

def scoreLt : Score → Score → Bool
  | .num a, .num b => decide (a < b)
  | .seq a, .seq b => lexLt a b
  | _, _ => false

/-- Python's `<=` on two aggregate scores of the same kind. -/
def scoreLe (a b : Score) : Bool := decide (a = b) || scoreLt a b

/-- `max(res, key=lambda x: x[1])` — first maximal element wins. -/
def maxKey {α : Type} (r : α × Score) : List (α × Score) → α × Score
  | [] => r
  | x :: xs => maxKey (if scoreLt r.2 x.2 then x else r) xs

/-- `run(extensions, arguments, votes_dict, measure, agg)` of src/css.py. -/
def run (extensions : List (List String)) (arguments : List String)
    (votes_dict : List ((String × String) × ℤ)) (measure agg : String) :
    Except String (List (List String)) :=
  if extensions = [] then .ok []
  else
    let agents := groupAgents votes_dict
    match extensions.mapM (fun ext =>
        (scoreOf arguments agents measure agg ext).map (fun s => (ext, s))) with
    | .error e => .error e
    | .ok res =>
      match res with
      | [] => .error "max() arg is an empty sequence"
      | r :: rs =>
        let mx := (maxKey r rs).2
        .ok ((res.filter (fun p => decide (p.2 = mx))).map Prod.fst)

end css
namespace cosar

theorem rndHalfEven_le (q : ℚ) : (rndHalfEven q : ℚ) ≤ q + 1/2 := by
  have hfq : (⌊q⌋ : ℚ) ≤ q := Int.floor_le q
  have hlq : q < ⌊q⌋ + 1 := Int.lt_floor_add_one q
  unfold rndHalfEven
  split_ifs <;> push_cast <;> linarith

theorem le_rndHalfEven (q : ℚ) : q - 1/2 ≤ (rndHalfEven q : ℚ) := by
  have hfq : (⌊q⌋ : ℚ) ≤ q := Int.floor_le q
  have hlq : q < ⌊q⌋ + 1 := Int.lt_floor_add_one q
  unfold rndHalfEven
  split_ifs <;> push_cast <;> linarith

theorem rndHalfEven_zero : rndHalfEven 0 = 0 := by
  unfold rndHalfEven
  norm_num

theorem rndHalfEven_mono {a b : ℚ} (hab : a ≤ b) : rndHalfEven a ≤ rndHalfEven b := by
  have hf : ⌊a⌋ ≤ ⌊b⌋ := Int.floor_mono hab
  have hfa : (⌊a⌋ : ℚ) ≤ a := Int.floor_le a
  have hfb : (⌊b⌋ : ℚ) ≤ b := Int.floor_le b
  have hla : a < ⌊a⌋ + 1 := Int.lt_floor_add_one a
  have hlb : b < ⌊b⌋ + 1 := Int.lt_floor_add_one b
  unfold rndHalfEven
  rcases eq_or_lt_of_le hf with hE | hL
  · have hEQ : ((⌊a⌋ : ℤ) : ℚ) = ((⌊b⌋ : ℤ) : ℚ) := by exact_mod_cast congrArg Int.cast hE
    split_ifs <;> first | omega | linarith
  · split_ifs <;> omega

end cosar
namespace cosar

theorem round3_mono {a b : ℚ} (h : a ≤ b) : round3 a ≤ round3 b := by
  have hr : (rndHalfEven (1000 * a) : ℚ) ≤ (rndHalfEven (1000 * b) : ℚ) := by
    exact_mod_cast rndHalfEven_mono (by linarith)
  unfold round3
  linarith

theorem round3_nonneg {a : ℚ} (h : 0 ≤ a) : 0 ≤ round3 a := by
  have hr : (rndHalfEven 0 : ℚ) ≤ (rndHalfEven (1000 * a) : ℚ) := by
    exact_mod_cast rndHalfEven_mono (by linarith)
  rw [rndHalfEven_zero] at hr
  unfold round3
  apply div_nonneg
  · exact_mod_cast hr
  · norm_num

theorem round3_le_one {a : ℚ} (h : a < 1) : round3 a ≤ 1 := by
  have h1 : (rndHalfEven (1000 * a) : ℚ) ≤ 1000 * a + 1/2 := rndHalfEven_le _
  have h2 : rndHalfEven (1000 * a) ≤ 1000 := by
    have h3 : (rndHalfEven (1000 * a) : ℚ) < 1001 := by linarith
    exact_mod_cast Int.lt_add_one_iff.mp (by exact_mod_cast h3)
  have h4 : (rndHalfEven (1000 * a) : ℚ) ≤ 1000 := by exact_mod_cast h2
  unfold round3
  linarith

theorem round3_zero : round3 0 = 0 := by
  unfold round3
  rw [show (1000 : ℚ) * 0 = 0 by ring, rndHalfEven_zero]
  norm_num

theorem scoreFormula_nonneg (t : Tally) : 0 ≤ scoreFormula t := by
  obtain ⟨m, z, p⟩ := t
  simp only [scoreFormula]
  split_ifs with h
  · exact le_refl 0
  · apply round3_nonneg
    apply div_nonneg
    · positivity
    · have : (0:ℚ) < (m:ℚ) + (p:ℚ) + EPS := by unfold EPS; positivity
      linarith

theorem scoreFormula_le_one (t : Tally) : scoreFormula t ≤ 1 := by
  obtain ⟨m, z, p⟩ := t
  simp only [scoreFormula]
  split_ifs with h
  · norm_num
  · apply round3_le_one
    rw [div_lt_one (by unfold EPS; positivity)]
    have hm : (0:ℚ) ≤ (m:ℚ) := by positivity
    unfold EPS
    linarith

end cosar
namespace cosar

theorem scoreFormula_p_zero (m z : ℕ) : scoreFormula (m, z, 0) = 0 := by
  simp only [scoreFormula]
  split_ifs with h
  · rfl
  · rw [show ((0:ℕ):ℚ) / ((m:ℚ) + ((0:ℕ):ℚ) + EPS) = 0 by norm_num]
    exact round3_zero

theorem scoreFormula_mono_p {m z : ℕ} {p p' : ℕ} (h : p ≤ p') :
    scoreFormula (m, z, p) ≤ scoreFormula (m, z, p') := by
  by_cases hp : p = 0
  · subst hp
    rw [scoreFormula_p_zero]
    exact scoreFormula_nonneg _
  · have hp' : ¬(p' = 0) := by omega
    simp only [scoreFormula]
    rw [if_neg (by tauto), if_neg (by tauto)]
    apply round3_mono
    have hd1 : (0:ℚ) < (m:ℚ) + (p:ℚ) + EPS := by unfold EPS; positivity
    have hd2 : (0:ℚ) < (m:ℚ) + (p':ℚ) + EPS := by unfold EPS; positivity
    rw [div_le_div_iff₀ hd1 hd2]
    have hc : (p:ℚ) ≤ (p':ℚ) := by exact_mod_cast h
    have hme : (0:ℚ) ≤ (m:ℚ) + EPS := by unfold EPS; positivity
    nlinarith [mul_le_mul_of_nonneg_right hc hme]

theorem scoreFormula_anti_m {m m' z : ℕ} {p : ℕ} (h : m ≤ m') :
    scoreFormula (m', z, p) ≤ scoreFormula (m, z, p) := by
  by_cases hp : p = 0
  · subst hp
    rw [scoreFormula_p_zero, scoreFormula_p_zero]
  · simp only [scoreFormula]
    rw [if_neg (by tauto), if_neg (by tauto)]
    apply round3_mono
    have hd1 : (0:ℚ) < (m':ℚ) + (p:ℚ) + EPS := by unfold EPS; positivity
    have hd2 : (0:ℚ) < (m:ℚ) + (p:ℚ) + EPS := by unfold EPS; positivity
    rw [div_le_div_iff₀ hd1 hd2]
    have hc : (m:ℚ) ≤ (m':ℚ) := by exact_mod_cast h
    have hpn : (0:ℚ) ≤ (p:ℚ) := by positivity
    nlinarith [mul_le_mul_of_nonneg_left hc hpn]

theorem scoreFormula_ignores_z (m z z' p : ℕ) :
    scoreFormula (m, z, p) = scoreFormula (m, z', p) := rfl

end cosar

namespace cosar

theorem floor_c3_input : ⌊(2000000 : ℚ) / 2001⌋ = 999 := by
  rw [Int.floor_eq_iff]
  norm_num

theorem rndHalfEven_c3_input : rndHalfEven ((2000000 : ℚ) / 2001) = 1000 := by
  unfold rndHalfEven
  rw [floor_c3_input]
  norm_num

theorem scoreFormula_at_200 : scoreFormula (0, 0, 200) = 1 := by
  simp only [scoreFormula]
  rw [if_neg (by norm_num)]
  have harg : (1000 : ℚ) * (((200 : ℕ) : ℚ) / (((0 : ℕ) : ℚ) + ((200 : ℕ) : ℚ) + EPS))
      = (2000000 : ℚ) / 2001 := by
    unfold EPS
    push_cast
    norm_num
  unfold round3
  rw [harg, rndHalfEven_c3_input]
  norm_num

end cosar

namespace cosar

/-- C3 (counterexample): the tally `(0, 0, 200)` yields the score
`round(200 / 200.1, 3) = 1.0`, so a score of `compute_scores` can reach `1`
and the half-open interval `[0, 1)` of the claim is wrong. -/
theorem c3_counterexample_score_reaches_one :
    compute_scores [("a", (0, 0, 200))] = [("a", 1)] ∧ ¬ scoreFormula (0, 0, 200) < 1 := by
  constructor
  · simp [compute_scores, scoreFormula_at_200]
  · rw [scoreFormula_at_200]
    exact lt_irrefl 1

/-- C3 (amended): for every tally map with finite non-negative counts, every
score returned by `compute_scores` lies in the closed interval `[0, 1]`:
it is non-negative and at most `1` (the bound `1` is attained, e.g. at the
tally `(0, 0, 200)`). -/
theorem c3_scores_in_unit_interval (t : List (String × Tally)) (a : String) (q : ℚ)
    (h : (a, q) ∈ compute_scores t) : 0 ≤ q ∧ q ≤ 1 := by
  unfold compute_scores at h
  obtain ⟨⟨a', t'⟩, _, heq⟩ := List.mem_map.mp h
  injection heq with h1 h2
  subst h2
  exact ⟨scoreFormula_nonneg _, scoreFormula_le_one _⟩

/-- Witness for C3 (amended) at the concrete tally map `[("a", (1, 0, 1))]`. -/
theorem c3_scores_in_unit_interval_witness :
    0 ≤ scoreFormula (1, 0, 1) ∧ scoreFormula (1, 0, 1) ≤ 1 :=
  c3_scores_in_unit_interval [("a", (1, 0, 1))] "a" (scoreFormula (1, 0, 1))
    (by simp [compute_scores])

/-- C8: the score computed from a tally `(m, z, p)` is non-decreasing in the
accept count `p` with `m` fixed, non-increasing in the reject count `m` with
`p` fixed, and independent of the abstain count `z`. -/
theorem c8_score_monotonicity (m m' z z' p p' : ℕ) :
    (p ≤ p' → scoreFormula (m, z, p) ≤ scoreFormula (m, z, p')) ∧
    (m ≤ m' → scoreFormula (m', z, p) ≤ scoreFormula (m, z, p)) ∧
    scoreFormula (m, z, p) = scoreFormula (m, z', p) :=
  ⟨fun h => scoreFormula_mono_p h, fun h => scoreFormula_anti_m h,
    scoreFormula_ignores_z m z z' p⟩

/-- Witness for C8 at concrete tallies, discharging the ordering hypotheses. -/
theorem c8_score_monotonicity_witness :
    (scoreFormula (3, 0, 1) ≤ scoreFormula (3, 0, 2)) ∧
    (scoreFormula (4, 0, 2) ≤ scoreFormula (3, 0, 2)) ∧
    scoreFormula (3, 0, 2) = scoreFormula (3, 7, 2) :=
  ⟨(c8_score_monotonicity 3 3 0 0 1 2).1 (by norm_num),
   (c8_score_monotonicity 3 4 0 0 2 2).2.1 (by norm_num),
   (c8_score_monotonicity 3 3 0 7 2 2).2.2⟩

end cosar
namespace cosar

/-- C6: when every argument referenced by an attack has a score entry
(`f` gives the looked-up values), `prune_attacks` returns exactly the attacks
whose attacker's score is greater than or equal to the target's (ties kept),
as an order- and duplicate-preserving filter of the input. -/
theorem c6_prune_keeps_iff_attacker_dominates (atts : List (String × String)) (scores : List (String × ℚ))
    (f : String → ℚ)
    (h : ∀ p ∈ atts, List.lookup p.1 scores = some (f p.1) ∧
         List.lookup p.2 scores = some (f p.2)) :
    prune_attacks atts scores = .ok (atts.filter (fun p => decide (f p.2 ≤ f p.1))) := by
  induction atts with
  | nil => rfl
  | cons a rest ih =>
    obtain ⟨a1, a2⟩ := a
    obtain ⟨h1, h2⟩ := h (a1, a2) (List.mem_cons_self _ _)
    have hr := ih (fun p hp => h p (List.mem_cons_of_mem _ hp))
    simp only [prune_attacks, h1, h2, hr, List.filter_cons]
    by_cases hc : f a2 ≤ f a1
    · rw [if_pos (ge_iff_le.mpr hc)]
      simp [hc]
    · rw [if_neg (fun hge => hc (ge_iff_le.mp hge))]
      simp [hc]

/-- C7: a successful `prune_attacks` returns a subsequence of its input
(subset, no new attacks), and re-running it on its own output with the same
scores returns that output unchanged (idempotence). -/
theorem c7_prune_sublist_and_idempotent (atts : List (String × String))
    (scores : List (String × ℚ)) (l : List (String × String))
    (h : prune_attacks atts scores = .ok l) :
    List.Sublist l atts ∧ prune_attacks l scores = .ok l := by
  induction atts generalizing l with
  | nil =>
    simp only [prune_attacks] at h
    injection h with h
    subst h
    exact ⟨List.Sublist.refl _, rfl⟩
  | cons a rest ih =>
    obtain ⟨a1, a2⟩ := a
    rw [prune_attacks] at h
    cases h1 : List.lookup a1 scores with
    | none => rw [h1] at h; exact absurd h (by simp)
    | some sa =>
      rw [h1] at h
      cases h2 : List.lookup a2 scores with
      | none => rw [h2] at h; exact absurd h (by simp)
      | some st =>
        rw [h2] at h
        cases hrec : prune_attacks rest scores with
        | error e => rw [hrec] at h; exact absurd h (by simp)
        | ok pr =>
          rw [hrec] at h
          dsimp only at h
          obtain ⟨hsub, hidem⟩ := ih pr hrec
          by_cases hc : sa ≥ st
          · rw [if_pos hc] at h
            injection h with h
            subst h
            refine ⟨List.Sublist.cons₂ _ hsub, ?_⟩
            simp only [prune_attacks, h1, h2, hidem]
            rw [if_pos hc]
          · rw [if_neg hc] at h
            injection h with h
            subst h
            exact ⟨List.Sublist.cons _ hsub, hidem⟩

/-- Witness for C6 at a concrete attack list and score map. -/
theorem c6_witness :
    prune_attacks [("a", "b")] [("a", (0 : ℚ)), ("b", 0)] = .ok [("a", "b")] := by
  have h := c6_prune_keeps_iff_attacker_dominates [("a", "b")] [("a", (0 : ℚ)), ("b", 0)]
    (fun _ => 0) (by intro p hp; simp at hp; subst hp; constructor <;> simp [List.lookup])
  simpa using h

/-- Witness for C7 at a concrete attack list and score map. -/
theorem c7_witness :
    List.Sublist [("a", "b")] [("a", "b")] ∧
    prune_attacks [("a", "b")] [("a", (0 : ℚ)), ("b", 0)] = .ok [("a", "b")] :=
  c7_prune_sublist_and_idempotent [("a", "b")] [("a", (0 : ℚ)), ("b", 0)] [("a", "b")]
    (by simp [prune_attacks, List.lookup])

end cosar
namespace cosar

/-- C5: whenever vote aggregation and attack pruning succeed, `cosar.run`
returns the pair `(P, E)` where `P` is the pruned attack relation obtained
from the aggregated tallies' scores and `E` is the external oracle's result
for `(arguments, P, semantics)` — the oracle is called on the pruned
relation, both components are returned unmodified, and an oracle failure
propagates unchanged. -/
theorem c5_run_composes {E : Type}
    (oracle : List String → List (String × String) → String → Except String E)
    (args : List String) (atts : List (String × String))
    (votes : List ((String × String) × ℤ)) (semantics : String)
    (t : List (String × Tally)) (P : List (String × String))
    (ha : aggregate_votes args votes = .ok t)
    (hp : prune_attacks atts (compute_scores t) = .ok P) :
    run oracle args atts votes semantics
      = Except.map (fun ext => (P, ext)) (oracle args P semantics) := by
  unfold run
  rw [ha]
  simp only [bind, Except.bind, hp]
  cases ho : oracle args P semantics with
  | error e => simp [Except.map]
  | ok v => simp [Except.map, pure, Except.pure]

/-- Witness for C5: a one-argument framework, no votes, no attacks, and an
oracle that returns its attack input. -/
theorem c5_witness :
    run (fun _ p _ => Except.ok p) ["a"] [] [] "SE-ST"
      = Except.map (fun ext => (([] : List (String × String)), ext))
          ((fun (_ : List String) (p : List (String × String)) (_ : String) =>
            Except.ok p) ["a"] [] "SE-ST") :=
  c5_run_composes (fun _ p _ => Except.ok p) ["a"] [] [] "SE-ST"
    [("a", (0, 0, 0))] [] (by rfl) (by rfl)

end cosar
namespace cosar

theorem lookup_bump_isSome (t : List (String × Tally)) (arg x : String) (f : Tally → Tally) :
    (List.lookup x (bump t arg f)).isSome = (List.lookup x t).isSome := by
  induction t with
  | nil => rfl
  | cons p rest ih =>
    simp only [bump, List.map_cons]
    by_cases hp : p.1 = arg
    · rw [if_pos hp]
      cases hbe : x == p.1
      · simp [List.lookup, hbe, bump] at ih ⊢
        exact ih
      · simp [List.lookup, hbe, bump]
    · rw [if_neg hp]
      cases hbe : x == p.1
      · simp [List.lookup, hbe, bump] at ih ⊢
        exact ih
      · simp [List.lookup, hbe, bump]

theorem lookup_append_single_isSome (acc : List (String × Tally)) (a x : String) (v : Tally) :
    (List.lookup x (acc ++ [(a, v)])).isSome
      = ((List.lookup x acc).isSome || x == a) := by
  induction acc with
  | nil => cases hbe : x == a <;> simp [List.lookup, hbe]
  | cons p rest ih =>
    cases hbe : x == p.1 <;> simp [List.lookup, hbe, ih]

theorem lookup_initTally_loop (args : List String) :
    ∀ (acc : List (String × Tally)) (x : String),
    (List.lookup x (args.foldl (fun acc a =>
       if (List.lookup a acc).isSome then acc else acc ++ [(a, (0, 0, 0))]) acc)).isSome
    = ((List.lookup x acc).isSome || decide (x ∈ args)) := by
  induction args with
  | nil => intro acc x; simp
  | cons a rest ih =>
    intro acc x
    rw [List.foldl_cons, ih]
    have hstep : (List.lookup x (if (List.lookup a acc).isSome then acc
        else acc ++ [(a, (0, 0, 0))])).isSome
        = ((List.lookup x acc).isSome || x == a) := by
      by_cases ha : (List.lookup a acc).isSome
      · rw [if_pos ha]
        cases hbe : x == a
        · simp [hbe]
        · have hxa : x = a := eq_of_beq hbe
          subst hxa
          simp [ha]
      · rw [if_neg ha]
        exact lookup_append_single_isSome acc a x (0, 0, 0)
    rw [hstep]
    by_cases hxa : x = a
    · subst hxa
      simp
    · have hb : (x == a) = false := by
        cases hbe : x == a
        · rfl
        · exact absurd (eq_of_beq hbe) hxa
      rw [hb]
      simp [List.mem_cons, hxa]

theorem lookup_initTally_isSome (args : List String) (x : String)
    (hx : x ∈ args) : (List.lookup x (initTally args)).isSome = true := by
  unfold initTally
  rw [lookup_initTally_loop args [] x]
  simp [List.lookup, hx]

theorem foldlM_voteStep_invalid (votes : List ((String × String) × ℤ)) :
    ∀ (t : List (String × Tally)) (ag arg : String) (v : ℤ),
    ((ag, arg), v) ∈ votes → (List.lookup arg t).isSome →
    v ≠ -1 → v ≠ 0 → v ≠ 1 →
    ∃ msg, List.foldlM voteStep t votes = .error msg := by
  induction votes with
  | nil => intro t ag arg v hmem _ _ _ _; simp at hmem
  | cons e rest ih =>
    intro t ag arg v hmem ht h1 h2 h3
    obtain ⟨⟨eag, earg⟩, ev⟩ := e
    rw [List.foldlM_cons]
    cases hstep : voteStep t ((eag, earg), ev) with
    | error msg => exact ⟨msg, rfl⟩
    | ok t' =>
      simp only [voteStep] at hstep
      rcases List.mem_cons.mp hmem with he | hrest
      · exfalso
        injection he with hp hv
        injection hp with hag harg2
        subst hv
        subst harg2
        rw [if_pos ht, if_neg h1, if_neg h2, if_neg h3] at hstep
        cases hstep
      · have ht' : (List.lookup arg t').isSome := by
          split_ifs at hstep with c1 c2 c3 c4
          · injection hstep with h
            rw [← h, lookup_bump_isSome]
            exact ht
          · injection hstep with h
            rw [← h, lookup_bump_isSome]
            exact ht
          · injection hstep with h
            rw [← h, lookup_bump_isSome]
            exact ht
          · injection hstep with h
            rw [← h]
            exact ht
        obtain ⟨msg, hm⟩ := ih t' ag arg v hrest ht' h1 h2 h3
        exact ⟨msg, hm⟩

/-- C1 (counterexample): an entry of `votes` whose argument is not in the
argument list is silently skipped even when its value `5` is outside
`{-1, 0, 1}` — the call succeeds instead of failing with an invalid-vote
error, refuting the claim for entries on untracked arguments. -/
theorem c1_counterexample_untracked_invalid_vote_ignored :
    aggregate_votes ["a"] [(("ag", "x"), 5)] = .ok [("a", (0, 0, 0))] := rfl

/-- C1 (amended): if some entry of `votes` carries a value outside
`{-1, 0, 1}` *and its argument occurs in `arguments`*, then
`aggregate_votes` fails with an invalid-vote error for the whole call — it
returns `Except.error`, so no partial tally is returned (entries whose
argument is not in `arguments` are silently ignored, whatever their value). -/
theorem c1_invalid_tracked_vote_fails (args : List String)
    (votes : List ((String × String) × ℤ)) (ag arg : String) (v : ℤ)
    (hmem : ((ag, arg), v) ∈ votes) (harg : arg ∈ args)
    (h1 : v ≠ -1) (h2 : v ≠ 0) (h3 : v ≠ 1) :
    ∃ msg, aggregate_votes args votes = .error msg :=
  foldlM_voteStep_invalid votes (initTally args) ag arg v hmem
    (lookup_initTally_isSome args arg harg) h1 h2 h3

/-- Witness for C1 (amended): a vote of `5` on the tracked argument `"a"`. -/
theorem c1_invalid_tracked_vote_fails_witness :
    ∃ msg, aggregate_votes ["a"] [(("ag", "a"), 5)] = .error msg :=
  c1_invalid_tracked_vote_fails ["a"] [(("ag", "a"), 5)] "ag" "a" 5
    (List.mem_singleton.mpr rfl) (List.mem_singleton.mpr rfl)
    (by decide) (by decide) (by decide)

end cosar
namespace css

/-- C10: with a non-empty extensions list, an empty votes mapping (no
agents) and `agg = 'min'`, `css.run` raises (min of an empty per-agent
score sequence) instead of returning a result. -/
theorem c10_min_with_no_agents_raises (extensions : List (List String))
    (arguments : List String) (measure : String) (h : extensions ≠ []) :
    run extensions arguments [] measure "min"
      = .error "min() arg is an empty sequence" := by
  obtain ⟨e, rest, rfl⟩ := List.exists_cons_of_ne_nil h
  have hsc : scoreOf arguments (groupAgents []) measure "min" e
      = .error "min() arg is an empty sequence" := rfl
  have hmap : ((e :: rest).mapM (fun ext =>
      (scoreOf arguments (groupAgents []) measure "min" ext).map (fun s => (ext, s))))
      = (.error "min() arg is an empty sequence"
          : Except String (List (List String × Score))) := by
    rw [List.mapM_cons, hsc]
    rfl
  simp only [run, hmap]
  rw [if_neg (by simp)]

/-- Witness for C10 at a concrete non-empty extensions list. -/
theorem c10_witness :
    run [["a"]] ["a"] [] "U" "min" = .error "min() arg is an empty sequence" :=
  c10_min_with_no_agents_raises [["a"]] ["a"] "U" (by simp)

end css
namespace css

theorem perAgent_unknown (measure : String) (s d : ℤ)
    (hS : measure ≠ "S") (hD : measure ≠ "D") (hU : measure ≠ "U") :
    perAgent measure s d = s + d := by
  unfold perAgent
  rw [if_neg hS, if_neg hD, if_neg hU]

theorem perAgent_U (s d : ℤ) : perAgent "U" s d = s + d := by
  unfold perAgent
  rw [if_neg (by decide), if_neg (by decide), if_pos rfl]

theorem scList_unknown_measure (arguments : List String)
    (agents : List (String × List (String × ℤ))) (measure : String)
    (ext : List String) (hS : measure ≠ "S") (hD : measure ≠ "D") (hU : measure ≠ "U") :
    scList arguments agents measure ext = scList arguments agents "U" ext := by
  unfold scList
  congr 1
  funext p
  rw [perAgent_unknown measure _ _ hS hD hU, perAgent_U]

theorem aggScore_unknown (agg : String) (sc : List ℤ)
    (h1 : agg ≠ "sum") (h2 : agg ≠ "min") (h3 : agg ≠ "leximax") (h4 : agg ≠ "leximin") :
    aggScore agg sc = aggScore "leximin" sc := by
  unfold aggScore
  rw [if_neg h1, if_neg h2, if_neg h3, if_neg h4,
    if_neg (by decide), if_neg (by decide), if_neg (by decide), if_pos rfl]

/-- C9: an unrecognized `measure` value makes each per-agent score fall back
to `U = S + D` — `css.run` behaves exactly as with `measure = 'U'` — and an
unrecognized `agg` value falls back to the `leximin` aggregation —
`css.run` behaves exactly as with `agg = 'leximin'`; in neither case is the
unrecognized tag rejected with an error. -/
theorem c9_unknown_tags_fall_back (extensions : List (List String))
    (arguments : List String) (votes_dict : List ((String × String) × ℤ))
    (measure agg : String) (s d : ℤ) :
    (measure ≠ "S" → measure ≠ "D" → measure ≠ "U" →
      perAgent measure s d = s + d ∧
      run extensions arguments votes_dict measure agg
        = run extensions arguments votes_dict "U" agg) ∧
    (agg ≠ "sum" → agg ≠ "min" → agg ≠ "leximax" → agg ≠ "leximin" →
      run extensions arguments votes_dict measure agg
        = run extensions arguments votes_dict measure "leximin") := by
  constructor
  · intro hS hD hU
    refine ⟨perAgent_unknown measure s d hS hD hU, ?_⟩
    have hfun : (fun ext => (scoreOf arguments (groupAgents votes_dict) measure agg ext).map
        (fun s => (ext, s)))
        = (fun ext => (scoreOf arguments (groupAgents votes_dict) "U" agg ext).map
        (fun s => (ext, s))) := by
      funext ext
      rw [scoreOf, scoreOf, scList_unknown_measure arguments _ measure ext hS hD hU]
    simp only [run, hfun]
  · intro h1 h2 h3 h4
    have hfun : (fun ext => (scoreOf arguments (groupAgents votes_dict) measure agg ext).map
        (fun s => (ext, s)))
        = (fun ext => (scoreOf arguments (groupAgents votes_dict) measure "leximin" ext).map
        (fun s => (ext, s))) := by
      funext ext
      rw [scoreOf, scoreOf, aggScore_unknown agg _ h1 h2 h3 h4]
    simp only [run, hfun]

/-- Witness for C9 at concrete unrecognized tags `measure = 'Q'`,
`agg = 'median'`. -/
theorem c9_witness :
    (perAgent "Q" 2 (-1) = 2 + (-1) ∧
      run [["a"]] ["a"] [(("X", "a"), 1)] "Q" "sum"
        = run [["a"]] ["a"] [(("X", "a"), 1)] "U" "sum") ∧
    run [["a"]] ["a"] [(("X", "a"), 1)] "U" "median"
      = run [["a"]] ["a"] [(("X", "a"), 1)] "U" "leximin" :=
  ⟨(c9_unknown_tags_fall_back [["a"]] ["a"] [(("X", "a"), 1)] "Q" "sum" 2 (-1)).1
      (by decide) (by decide) (by decide),
   (c9_unknown_tags_fall_back [["a"]] ["a"] [(("X", "a"), 1)] "U" "median" 2 (-1)).2
      (by decide) (by decide) (by decide) (by decide)⟩

end css
namespace css

theorem updateAgents_ne_nil (acc : List (String × List (String × ℤ))) (ag arg : String)
    (v : ℤ) : updateAgents acc ag arg v ≠ [] := by
  unfold updateAgents
  by_cases h : (List.lookup ag acc).isSome
  · rw [if_pos h]
    cases acc with
    | nil => simp [List.lookup] at h
    | cons p rest => simp
  · rw [if_neg h]
    simp

theorem foldl_updateAgents_ne_nil (l : List ((String × String) × ℤ)) :
    ∀ (acc : List (String × List (String × ℤ))), acc ≠ [] →
    List.foldl (fun acc e => updateAgents acc e.1.1 e.1.2 e.2) acc l ≠ [] := by
  induction l with
  | nil => intro acc h; exact h
  | cons x xs ih =>
    intro acc _
    rw [List.foldl_cons]
    exact ih _ (updateAgents_ne_nil acc x.1.1 x.1.2 x.2)

theorem groupAgents_ne_nil (v : (String × String) × ℤ) (vs : List ((String × String) × ℤ)) :
    groupAgents (v :: vs) ≠ [] := by
  unfold groupAgents
  rw [List.foldl_cons]
  exact foldl_updateAgents_ne_nil vs _ (updateAgents_ne_nil [] v.1.1 v.1.2 v.2)

theorem aggScore_ok (agg : String) (sc : List ℤ) (h : agg ≠ "min" ∨ sc ≠ []) :
    ∃ s, aggScore agg sc = .ok s := by
  unfold aggScore
  split_ifs with h1 h2 h3 h4
  · exact ⟨_, rfl⟩
  · rcases h with hm | hsc
    · exact absurd h2 hm
    · cases sc with
      | nil => exact absurd rfl hsc
      | cons x xs => exact ⟨_, rfl⟩
  · exact ⟨_, rfl⟩
  · exact ⟨_, rfl⟩
  · exact ⟨_, rfl⟩

/-- C2 (counterexample): with the single extension `["b"]`, the empty votes
mapping and `agg = 'min'`, `css.run` raises (min of an empty sequence)
instead of returning the single extension, refuting the claim for the
combination of an empty votes mapping with `agg = 'min'`. -/
theorem c2_counterexample_min_no_votes :
    run [["b"]] ["b"] [] "S" "min" = .error "min() arg is an empty sequence" := rfl

/-- C2 (amended): for every extensions list containing exactly one
extension, `css.run` returns a list containing exactly that extension, for
every arguments list, every measure and agg value, and every votes mapping —
except the combination `agg = 'min'` with a votes mapping containing no
agents, where the call raises instead. -/
theorem c2_singleton_returned (e : List String) (arguments : List String)
    (votes_dict : List ((String × String) × ℤ)) (measure agg : String)
    (h : agg ≠ "min" ∨ votes_dict ≠ []) :
    run [e] arguments votes_dict measure agg = .ok [e] := by
  have hsc : ∃ s, scoreOf arguments (groupAgents votes_dict) measure agg e = .ok s := by
    apply aggScore_ok
    rcases h with hm | hv
    · exact Or.inl hm
    · right
      have hg : groupAgents votes_dict ≠ [] := by
        cases votes_dict with
        | nil => exact absurd rfl hv
        | cons v vs => exact groupAgents_ne_nil v vs
      simpa [scList, List.map_eq_nil_iff] using hg
  obtain ⟨s, hs⟩ := hsc
  have hmap : ([e].mapM (fun ext =>
      (scoreOf arguments (groupAgents votes_dict) measure agg ext).map (fun s => (ext, s))))
      = .ok [(e, s)] := by
    rw [List.mapM_cons, hs]
    rfl
  simp only [run, hmap]
  rw [if_neg (by simp)]
  simp [maxKey]

/-- Witness for C2 (amended) at a concrete call with `agg = 'sum'`. -/
theorem c2_witness : run [["a"]] ["a"] [] "U" "sum" = .ok [["a"]] :=
  c2_singleton_returned ["a"] ["a"] [] "U" "sum" (Or.inl (by decide))

end css
namespace css

/-- Two aggregate scores carry the same Python type (both ints or both
lists); within one `css.run` call all scores have the same kind, which is
what makes Python's mixed `max`/`==` selection well-defined. -/
def sameKind (a b : Score) : Prop :=
  match a, b with
  | .num _, .num _ => True
  | .seq _, .seq _ => True
  | _, _ => False

theorem sameKind_symm {a b : Score} (h : sameKind a b) : sameKind b a := by
  cases a <;> cases b <;> trivial

theorem sameKind_trans {a b c : Score} (h1 : sameKind a b) (h2 : sameKind b c) :
    sameKind a c := by
  cases a <;> cases b <;> cases c <;> trivial

theorem lexLt_irrefl (a : List ℤ) : lexLt a a = false := by
  induction a with
  | nil => rfl
  | cons x xs ih => simp [lexLt, ih]

theorem lexLt_asymm {a b : List ℤ} (h : lexLt a b = true) : lexLt b a = false := by
  induction a generalizing b with
  | nil =>
    cases b with
    | nil => simp [lexLt] at h
    | cons y ys => rfl
  | cons x xs ih =>
    cases b with
    | nil => simp [lexLt] at h
    | cons y ys =>
      simp only [lexLt, Bool.or_eq_true, Bool.and_eq_true, decide_eq_true_eq] at h ⊢
      simp only [Bool.or_eq_false_iff, Bool.and_eq_false_iff, decide_eq_false_iff_not]
      rcases h with hlt | ⟨heq, hrec⟩
      · exact ⟨by omega, Or.inl (by omega)⟩
      · exact ⟨by omega, Or.inr (ih hrec)⟩

theorem lexLt_trichotomy (a b : List ℤ) :
    lexLt a b = true ∨ a = b ∨ lexLt b a = true := by
  induction a generalizing b with
  | nil =>
    cases b with
    | nil => right; left; rfl
    | cons y ys => left; rfl
  | cons x xs ih =>
    cases b with
    | nil => right; right; rfl
    | cons y ys =>
      rcases lt_trichotomy x y with hxy | hxy | hxy
      · left; simp [lexLt, hxy]
      · subst hxy
        rcases ih ys with h | h | h
        · left; simp [lexLt, h]
        · right; left; rw [h]
        · right; right; simp [lexLt, h]
      · right; right; simp [lexLt, hxy]

theorem lexLt_trans {a b c : List ℤ} (h1 : lexLt a b = true) (h2 : lexLt b c = true) :
    lexLt a c = true := by
  induction a generalizing b c with
  | nil =>
    cases c with
    | nil =>
      cases b with
      | nil => simp [lexLt] at h1
      | cons y ys => simp [lexLt] at h2
    | cons z zs => rfl
  | cons x xs ih =>
    cases b with
    | nil => simp [lexLt] at h1
    | cons y ys =>
      cases c with
      | nil => simp [lexLt] at h2
      | cons z zs =>
        simp only [lexLt, Bool.or_eq_true, Bool.and_eq_true, decide_eq_true_eq] at h1 h2 ⊢
        rcases h1 with hlt1 | ⟨heq1, hrec1⟩
        · rcases h2 with hlt2 | ⟨heq2, hrec2⟩
          · left; omega
          · left; omega
        · rcases h2 with hlt2 | ⟨heq2, hrec2⟩
          · left; omega
          · right; exact ⟨by omega, ih hrec1 hrec2⟩

theorem scoreLe_refl (a : Score) : scoreLe a a = true := by
  simp [scoreLe]

theorem scoreLt_le {a b : Score} (h : scoreLt a b = true) : scoreLe a b = true := by
  simp [scoreLe, h]

theorem scoreLt_asymm {a b : Score} (h : scoreLt a b = true) : scoreLt b a = false := by
  cases a with
  | num x =>
    cases b with
    | num y =>
      simp only [scoreLt, decide_eq_true_eq] at h
      simp only [scoreLt, decide_eq_false_iff_not]
      omega
    | seq y => simp [scoreLt] at h
  | seq x =>
    cases b with
    | num y => simp [scoreLt] at h
    | seq y =>
      simp only [scoreLt] at h ⊢
      exact lexLt_asymm h

theorem scoreLt_trans {a b c : Score} (h1 : scoreLt a b = true) (h2 : scoreLt b c = true) :
    scoreLt a c = true := by
  cases a <;> cases b <;> cases c <;>
    simp only [scoreLt, decide_eq_true_eq] at h1 h2 ⊢ <;>
    first
    | omega
    | exact lexLt_trans h1 h2
    | cases h1
    | cases h2

theorem scoreLe_trans {a b c : Score} (h1 : scoreLe a b = true) (h2 : scoreLe b c = true) :
    scoreLe a c = true := by
  simp only [scoreLe, Bool.or_eq_true, decide_eq_true_eq] at h1 h2 ⊢
  rcases h1 with rfl | hlt1
  · exact h2
  · rcases h2 with rfl | hlt2
    · right; exact hlt1
    · right; exact scoreLt_trans hlt1 hlt2

theorem scoreLe_antisymm {a b : Score} (h1 : scoreLe a b = true) (h2 : scoreLe b a = true) :
    a = b := by
  simp only [scoreLe, Bool.or_eq_true, decide_eq_true_eq] at h1 h2
  rcases h1 with rfl | hlt1
  · rfl
  · rcases h2 with rfl | hlt2
    · rfl
    · have := scoreLt_asymm hlt1
      rw [this] at hlt2
      cases hlt2

theorem scoreLt_false_total {a b : Score} (hk : sameKind a b) (h : scoreLt a b = false) :
    scoreLe b a = true := by
  cases a with
  | num x =>
    cases b with
    | num y =>
      simp only [scoreLt, decide_eq_false_iff_not] at h
      simp only [scoreLe, scoreLt, Bool.or_eq_true, decide_eq_true_eq, Score.num.injEq]
      omega
    | seq y => exact absurd hk (by simp [sameKind])
  | seq x =>
    cases b with
    | num y => exact absurd hk (by simp [sameKind])
    | seq y =>
      simp only [scoreLt] at h
      simp only [scoreLe, scoreLt, Bool.or_eq_true, decide_eq_true_eq, Score.seq.injEq]
      rcases lexLt_trichotomy x y with hlt | heq | hgt
      · rw [hlt] at h; cases h
      · left; rw [heq]
      · right; exact hgt

end css
namespace css

theorem aggScore_kind {agg : String} {sc sc' : List ℤ} {s s' : Score}
    (h : aggScore agg sc = .ok s) (h' : aggScore agg sc' = .ok s') :
    sameKind s s' := by
  unfold aggScore at h h'
  split_ifs at h h'
  · injection h with h; injection h' with h'; rw [← h, ← h']; trivial
  · cases sc with
    | nil => cases h
    | cons x xs =>
      cases sc' with
      | nil => cases h'
      | cons y ys =>
        injection h with h; injection h' with h'; rw [← h, ← h']; trivial
  · injection h with h; injection h' with h'; rw [← h, ← h']; trivial
  · injection h with h; injection h' with h'; rw [← h, ← h']; trivial
  · injection h with h; injection h' with h'; rw [← h, ← h']; trivial

theorem maxKey_mem {α : Type} (r : α × Score) (l : List (α × Score)) :
    maxKey r l = r ∨ maxKey r l ∈ l := by
  induction l generalizing r with
  | nil => left; rfl
  | cons x xs ih =>
    rw [maxKey]
    by_cases hc : scoreLt r.2 x.2 = true
    · rw [if_pos hc]
      rcases ih x with h | h
      · right; rw [h]; exact List.mem_cons_self _ _
      · right; exact List.mem_cons_of_mem _ h
    · rw [if_neg hc]
      rcases ih r with h | h
      · left; exact h
      · right; exact List.mem_cons_of_mem _ h

theorem maxKey_ge {α : Type} (l : List (α × Score)) :
    ∀ (r : α × Score), (∀ x ∈ l, sameKind x.2 r.2) →
    scoreLe r.2 (maxKey r l).2 = true ∧
    ∀ x ∈ l, scoreLe x.2 (maxKey r l).2 = true := by
  induction l with
  | nil => intro r _; exact ⟨scoreLe_refl _, by simp⟩
  | cons x xs ih =>
    intro r hk
    rw [maxKey]
    have hkx : sameKind x.2 r.2 := hk x (List.mem_cons_self _ _)
    by_cases hc : scoreLt r.2 x.2 = true
    · rw [if_pos hc]
      have hk' : ∀ y ∈ xs, sameKind y.2 x.2 := fun y hy =>
        sameKind_trans (hk y (List.mem_cons_of_mem _ hy)) (sameKind_symm hkx)
      obtain ⟨h1, h2⟩ := ih x hk'
      refine ⟨scoreLe_trans (scoreLt_le hc) h1, ?_⟩
      intro y hy
      rcases List.mem_cons.mp hy with rfl | hmem
      · exact h1
      · exact h2 y hmem
    · rw [if_neg hc]
      obtain ⟨h1, h2⟩ := ih r (fun y hy => hk y (List.mem_cons_of_mem _ hy))
      refine ⟨h1, ?_⟩
      intro y hy
      rcases List.mem_cons.mp hy with rfl | hmem
      · exact scoreLe_trans
          (scoreLt_false_total (sameKind_symm hkx) (Bool.eq_false_iff.mpr hc)) h1
      · exact h2 y hmem

theorem mapM_scores_ok (extensions : List (List String)) (arguments : List String)
    (agents : List (String × List (String × ℤ))) (measure agg : String)
    (f : List String → Score)
    (hf : ∀ e ∈ extensions, scoreOf arguments agents measure agg e = .ok (f e)) :
    extensions.mapM (fun ext =>
        (scoreOf arguments agents measure agg ext).map (fun s => (ext, s)))
      = .ok (extensions.map (fun e => (e, f e))) := by
  induction extensions with
  | nil => rfl
  | cons e rest ih =>
    rw [List.mapM_cons, hf e (List.mem_cons_self _ _),
      ih (fun x hx => hf x (List.mem_cons_of_mem _ hx))]
    rfl

end css
namespace css

/-- C4: for a non-empty extensions list and fixed measure and agg, whenever
every extension's aggregate score is computed (`f` gives the computed
scores), `css.run` returns exactly those supplied extensions whose aggregate
score is greater than or equal to every supplied extension's score — i.e.
equals the maximum under the order of the score type (numeric for the
scalar modes, lexicographic for the sequence modes) — keeping every tying
co-winner, in the order the extensions were supplied. -/
theorem c4_all_max_score_winners (extensions : List (List String))
    (arguments : List String) (votes_dict : List ((String × String) × ℤ))
    (measure agg : String) (f : List String → Score)
    (hne : extensions ≠ [])
    (hf : ∀ e ∈ extensions,
      scoreOf arguments (groupAgents votes_dict) measure agg e = .ok (f e)) :
    run extensions arguments votes_dict measure agg
      = .ok (extensions.filter (fun e =>
          extensions.all (fun e2 => scoreLe (f e2) (f e)))) := by
  obtain ⟨e0, rest, rfl⟩ := List.exists_cons_of_ne_nil hne
  have hmap := mapM_scores_ok (e0 :: rest) arguments (groupAgents votes_dict) measure agg f hf
  have hkall : ∀ e ∈ e0 :: rest, sameKind (f e) (f e0) := fun e he =>
    aggScore_kind (hf e he) (hf e0 (List.mem_cons_self _ _))
  have hkind : ∀ x ∈ rest.map (fun e => (e, f e)), sameKind x.2 (f e0) := by
    intro x hx
    obtain ⟨e, he, rfl⟩ := List.mem_map.mp hx
    exact hkall e (List.mem_cons_of_mem _ he)
  obtain ⟨hge0, hgeall⟩ := maxKey_ge (rest.map (fun e => (e, f e))) (e0, f e0) hkind
  have hdom : ∀ x ∈ e0 :: rest,
      scoreLe (f x) (maxKey (e0, f e0) (rest.map (fun e => (e, f e)))).2 = true := by
    intro x hx
    rcases List.mem_cons.mp hx with rfl | hmem
    · exact hge0
    · exact hgeall (x, f x) (List.mem_map_of_mem _ hmem)
  have hMform : ∃ eM, eM ∈ e0 :: rest ∧
      maxKey (e0, f e0) (rest.map (fun e => (e, f e))) = (eM, f eM) := by
    rcases maxKey_mem (e0, f e0) (rest.map (fun e => (e, f e))) with h | h
    · exact ⟨e0, List.mem_cons_self _ _, h⟩
    · obtain ⟨e', he', hform⟩ := List.mem_map.mp h
      exact ⟨e', List.mem_cons_of_mem _ he', hform.symm⟩
  obtain ⟨eM, heM, hMeq⟩ := hMform
  simp only [run, hmap, List.map_cons]
  rw [if_neg (by simp)]
  rw [show ((e0, f e0) :: List.map (fun e => (e, f e)) rest)
      = List.map (fun e => (e, f e)) (e0 :: rest) from rfl]
  rw [List.filter_map, List.map_map]
  rw [show (Prod.fst ∘ fun e => (e, f e)) = id from rfl, List.map_id]
  refine congrArg Except.ok (List.filter_congr ?_)
  intro e he
  simp only [Function.comp]
  cases hall : (e0 :: rest).all (fun e2 => scoreLe (f e2) (f e)) with
  | false =>
    apply decide_eq_false
    intro hEq
    have htrue : (e0 :: rest).all (fun e2 => scoreLe (f e2) (f e)) = true := by
      rw [List.all_eq_true]
      intro e2 he2
      rw [hEq]
      exact hdom e2 he2
    rw [hall] at htrue
    cases htrue
  | true =>
    apply decide_eq_true
    have h1 : scoreLe (f eM) (f e) = true := by
      rw [List.all_eq_true] at hall
      exact hall eM heM
    have h2 : scoreLe (f e) (f eM) = true := by
      have := hdom e he
      rw [hMeq] at this
      exact this
    rw [hMeq]
    exact scoreLe_antisymm h2 h1

/-- Witness for C4: two extensions with no votes — every score is `num 0`,
both tie, and both are returned in supplied order. -/
theorem c4_witness :
    run [["a"], ["b"]] ["a"] [] "U" "sum"
      = .ok (([["a"], ["b"]] : List (List String)).filter (fun e =>
          ([["a"], ["b"]] : List (List String)).all (fun e2 =>
            scoreLe ((fun _ => Score.num 0) e2) ((fun _ => Score.num 0) e)))) :=
  c4_all_max_score_winners [["a"], ["b"]] ["a"] [] "U" "sum" (fun _ => Score.num 0)
    (by simp) (by intro e _; rfl)

end css
